import Mathlib

/-!
# mimg: floating-point view of integer-channel images

A shallow embedding of `mimg.go`.

* `float64` is modelled by `ℚ` (arithmetic taken as exact; NaN and the
  infinities are outside the model). `f2U64` is `f2U` with the product
  `d * 255.0` rounded to `float64` (`roundFloat64`), as Go computes it.
* `uint32` and `uint8` values are natural numbers, reduced `% 2^32` and
  `% 2^8` at the places where the Go code converts to them.
* A Go interface is modelled by the record of its methods (`GoImage`, `FI`)
  or by the sum of its implementations (`Color`, `FC`).
* `os.Create`, `os.Open`, `png.Encode`, `jpeg.Encode` and `image.Decode`
  are parameters (`Collab`); `Save` and `Load` return their Go result
  together with the list of collaborator calls they made, in order.
-/

set_option linter.dupNamespace false

namespace Mimg

/-! ## Data model -/

/-- The type `image.Point`. -/
structure Point where
  X : Int
  Y : Int
  deriving DecidableEq, Repr

/-- The type `image.Rectangle`. -/
structure Rectangle where
  Min : Point
  Max : Point
  deriving DecidableEq, Repr

/-- The `color.Model` values: the canonical 8-bit model `color.RGBAModel`,
some of its standard siblings, and any other model identified by a tag. -/
inductive Model where
  | RGBAModel
  | RGBA64Model
  | NRGBAModel
  | GrayModel
  | custom (tag : Nat)
  deriving DecidableEq, Repr

/-- The struct `color.RGBA`: four `uint8` fields. -/
structure RGBA where
  R : Nat
  G : Nat
  B : Nat
  A : Nat
  deriving DecidableEq, Repr

/-- One channel of `color.RGBA.RGBA()` in Go's `image/color`:
`r = uint32(c.R); r |= r << 8`. -/
def widen8 (c : Nat) : Nat :=
  let r := c % 2 ^ 8
  (r ||| (r <<< 8)) % 2 ^ 32

/-- The method `color.RGBA.RGBA()` of Go's `image/color`. -/
def RGBA.RGBA (c : RGBA) : Nat × Nat × Nat × Nat :=
  (widen8 c.R, widen8 c.G, widen8 c.B, widen8 c.A)

/-- The interface `color.Color`: either a `*color.RGBA`, or any other
implementation, given by the four `uint32` values its `RGBA()` reports. -/
inductive Color where
  | ofRGBA (c : RGBA)
  | reports (r g b a : Nat)
  deriving DecidableEq, Repr

/-- The interface method `color.Color.RGBA()`. -/
def Color.RGBA : Color → Nat × Nat × Nat × Nat
  | .ofRGBA c => c.RGBA
  | .reports r g b a => (r % 2 ^ 32, g % 2 ^ 32, b % 2 ^ 32, a % 2 ^ 32)

/-- The interface `image.Image`. -/
structure GoImage where
  ColorModel : Model
  Bounds : Rectangle
  At : Int → Int → Color

/-- The struct `FRGBA`. -/
structure FRGBA where
  R : ℚ
  G : ℚ
  B : ℚ
  A : ℚ
  deriving DecidableEq

/-- The method `(*FRGBA).RGBA`. -/
def FRGBA.RGBA (f : FRGBA) : ℚ × ℚ × ℚ × ℚ :=
  (f.R, f.G, f.B, f.A)

/-- The struct `FColor`. -/
structure FColor where
  c : Color
  deriving DecidableEq

/-- The function `u2F`: `d = d >> 8; return float64(d) / 255.0`. -/
def u2F (d : Nat) : ℚ :=
  let d := (d % 2 ^ 32) >>> 8
  (d : ℚ) / 255

/-- The method `(*FColor).RGBA`. -/
def FColor.RGBA (f : FColor) : ℚ × ℚ × ℚ × ℚ :=
  let (ri, gi, bi, ai) := f.c.RGBA
  (u2F ri, u2F gi, u2F bi, u2F ai)

/-- The interface `FC`, as the sum of its two implementations. -/
inductive FC where
  | ofFRGBA (f : FRGBA)
  | ofFColor (f : FColor)
  deriving DecidableEq

/-- The interface method `FC.RGBA()`. -/
def FC.RGBA : FC → ℚ × ℚ × ℚ × ℚ
  | .ofFRGBA f => f.RGBA
  | .ofFColor f => f.RGBA

/-- The interface `FI`. -/
structure FI where
  At : Int → Int → FC
  Bounds : Rectangle
  ColorModel : Model

/-- The struct `FImage`. -/
structure FImage where
  src : GoImage

/-- The method `(*FImage).ColorModel`. -/
def FImage.ColorModel (f : FImage) : Model :=
  f.src.ColorModel

/-- The method `(*FImage).Bounds`. -/
def FImage.Bounds (f : FImage) : Rectangle :=
  f.src.Bounds

/-- The method `(*FImage).At`. -/
def FImage.At (f : FImage) (x y : Int) : FC :=
  .ofFColor ⟨f.src.At x y⟩

/-- The struct `Image`. -/
structure Image where
  src : FI

/-- Go's conversion of a float to an integer discards the fraction
(truncation towards zero). -/
def truncate (q : ℚ) : Int :=
  Int.tdiv q.num q.den

/-- The clamping part of `f2U`: the value of `d` after the two `if`s. -/
def clamp01 (d : ℚ) : ℚ :=
  let d := if d < 0 then 0 else d
  let d := if d > 1 then 1 else d
  d

/-- The integer `f2U` converts to `uint8`: the truncation of `d * 255.0`
after clamping. -/
def f2UScaled (d : ℚ) : Int :=
  truncate (clamp01 d * 255)

/-- The function `f2U`; the conversion to `uint8` is the reduction `% 2^8`. -/
def f2U (d : ℚ) : Nat :=
  (f2UScaled d % 2 ^ 8).toNat

/-- Rounding of a non-negative rational to the nearest integer, ties to
the even one. -/
def roundEven (y : ℚ) : Int :=
  let n := ⌊y⌋
  if y - n < 1 / 2 then n
  else if 1 / 2 < y - n then n + 1
  else if n % 2 = 0 then n else n + 1

/-- The exponent of the unit in the last place of `float64` (IEEE 754
binary64) at `x > 0`: 52 below the binary exponent of `x`, and never below
`-1074` (the subnormal range). -/
def ulpExp (x : ℚ) : Int :=
  max (Int.log 2 x - 52) (-1074)

/-- The `float64` nearest to `x` (round to nearest, ties to even): the
multiple of `2 ^ ulpExp |x|` nearest to `x`. Overflow to an infinity is not
modelled; `f2U64` rounds values of `[0, 255]` only. -/
def roundFloat64 (x : ℚ) : ℚ :=
  if x = 0 then 0
  else if x < 0 then -((roundEven (-x / 2 ^ ulpExp (-x)) : ℚ) * 2 ^ ulpExp (-x))
  else (roundEven (x / 2 ^ ulpExp x) : ℚ) * 2 ^ ulpExp x

/-- The integer `f2U` converts to `uint8` when the product `d * 255.0` is
rounded to `float64` before the truncation, as Go computes it. -/
def f2U64Scaled (d : ℚ) : Int :=
  truncate (roundFloat64 (clamp01 d * 255))

/-- The function `f2U` on a `float64` argument `d`, with the `float64`
rounding of the product `d * 255.0`. -/
def f2U64 (d : ℚ) : Nat :=
  (f2U64Scaled d % 2 ^ 8).toNat

/-- The method `(*Image).At`, which returns a `*color.RGBA`. -/
def Image.At (i : Image) (x y : Int) : RGBA :=
  let c := i.src.At x y
  let (r, g, b, a) := c.RGBA
  ⟨f2U r, f2U g, f2U b, f2U a⟩

/-- The method `(*Image).Bounds`. -/
def Image.Bounds (i : Image) : Rectangle :=
  i.src.Bounds

/-- The method `(*Image).ColorModel`. -/
def Image.ColorModel (_i : Image) : Model :=
  .RGBAModel

/-- The function `FI2Image`: the `*Image` seen through `image.Image`. -/
def FI2Image (src : FI) : GoImage :=
  let i : Image := ⟨src⟩
  { ColorModel := i.ColorModel
    Bounds := i.Bounds
    At := fun x y => .ofRGBA (i.At x y) }

/-- The function `NewFI`: the `*FImage` seen through `FI`. -/
def NewFI (src : GoImage) : FI :=
  let f : FImage := ⟨src⟩
  { At := f.At
    Bounds := f.Bounds
    ColorModel := f.ColorModel }

/-! ## Storage and codecs -/

/-- A Go `error` value: one made by `errors.New`, or one made elsewhere
(by `os`, `image`, `image/png`, `image/jpeg`), identified by a code. -/
inductive GoError where
  | errorsNew (text : String)
  | other (code : Nat)
  deriving DecidableEq, Repr

/-- The type `*os.File`. -/
structure File where
  fd : Nat
  deriving DecidableEq, Repr

/-- A call made to a collaborator. -/
inductive Call where
  | osCreate (filename : String)
  | osOpen (filename : String)
  | pngEncode (fp : File)
  | jpegEncode (fp : File)
  | imageDecode (w : File)
  | close (fp : File)
  deriving DecidableEq, Repr

/-- The collaborators `os.Create`, `os.Open`, `png.Encode`, `jpeg.Encode`
(with `nil` options) and `image.Decode`. An `error` result is `none` for
`nil`. -/
structure Collab where
  osCreate : String → Except GoError File
  osOpen : String → Except GoError File
  pngEncode : File → GoImage → Option GoError
  jpegEncode : File → GoImage → Option GoError
  imageDecode : File → Except GoError (GoImage × String)

/-- The constant `PNG`. -/
def PNG : Int := 1

/-- The constant `JPEG`. -/
def JPEG : Int := 2

/-- The function `savePng`, with the calls it makes. -/
def savePng (k : Collab) (src : GoImage) (filename : String) :
    Option GoError × List Call :=
  match k.osCreate filename with
  | .error err => (some err, [.osCreate filename])
  | .ok fp => (k.pngEncode fp src, [.osCreate filename, .pngEncode fp, .close fp])

/-- The function `saveJpg`, with the calls it makes. -/
def saveJpg (k : Collab) (src : GoImage) (filename : String) :
    Option GoError × List Call :=
  match k.osCreate filename with
  | .error err => (some err, [.osCreate filename])
  | .ok fp => (k.jpegEncode fp src, [.osCreate filename, .jpegEncode fp, .close fp])

/-- The function `saveImage`, with the calls it makes. -/
def saveImage (k : Collab) (src : GoImage) (filename : String) (mod : Int) :
    Option GoError × List Call :=
  if mod = PNG then savePng k src filename
  else if mod = JPEG then saveJpg k src filename
  else (some (.errorsNew "unknown save mod"), [])

/-- The function `Save`, with the calls it makes. -/
def Save (k : Collab) (f : FI) (filename : String) (mod : Int) :
    Option GoError × List Call :=
  let d := FI2Image f
  saveImage k d filename mod

/-- The function `Load`, with the calls it makes. -/
def Load (k : Collab) (filename : String) :
    (Option FI × Option GoError) × List Call :=
  match k.osOpen filename with
  | .error err => ((none, some err), [.osOpen filename])
  | .ok w =>
    match k.imageDecode w with
    | .error err => ((none, some err), [.osOpen filename, .imageDecode w, .close w])
    | .ok (src, _) =>
      ((some (NewFI src), none), [.osOpen filename, .imageDecode w, .close w])

/-! ## Sample inputs -/

/-- A 2×2 image of `color.RGBA` pixels: red, green, blue, transparent. -/
def sampleImage : GoImage where
  ColorModel := .NRGBAModel
  Bounds := ⟨⟨0, 0⟩, ⟨2, 2⟩⟩
  At := fun x y =>
    if x = 0 ∧ y = 0 then .ofRGBA ⟨255, 0, 0, 255⟩
    else if x = 1 ∧ y = 0 then .ofRGBA ⟨0, 255, 0, 255⟩
    else if x = 0 ∧ y = 1 then .ofRGBA ⟨0, 0, 255, 255⟩
    else .ofRGBA ⟨0, 0, 0, 0⟩

/-- A 1×1 image whose pixel reports 16-bit channels. -/
def sampleImage16 : GoImage where
  ColorModel := .RGBA64Model
  Bounds := ⟨⟨0, 0⟩, ⟨1, 1⟩⟩
  At := fun _ _ => .reports 4660 255 65535 65535

/-- A float image source whose every pixel is `(1/2, -3, 7, 1)`. -/
def sampleSource : FI where
  At := fun _ _ => .ofFRGBA ⟨1 / 2, -3, 7, 1⟩
  Bounds := ⟨⟨0, 0⟩, ⟨1, 1⟩⟩
  ColorModel := .custom 7

/-- A float image source whose every pixel is `(1/2, 0, 1/3, 1)`. -/
def sampleUnitSource : FI where
  At := fun _ _ => .ofFRGBA ⟨1 / 2, 0, 1 / 3, 1⟩
  Bounds := ⟨⟨0, 0⟩, ⟨1, 1⟩⟩
  ColorModel := .custom 7

/-- The `float64` nearest to `1 / 255`, which is `(1 - 2 ^ (-56)) / 255`. -/
def nearOne255th : ℚ := 282578800148737 / 2 ^ 56

/-- Collaborators over an empty, read-only storage: nothing can be opened
or created. -/
def emptyStorage : Collab where
  osCreate := fun _ => .error (.other 13)
  osOpen := fun _ => .error (.other 2)
  pngEncode := fun _ _ => none
  jpegEncode := fun _ _ => none
  imageDecode := fun _ => .error (.other 100)

/-- Collaborators whose storage opens every path and whose decoder rejects
every stream. -/
def corruptStorage : Collab where
  osCreate := fun _ => .ok ⟨3⟩
  osOpen := fun _ => .ok ⟨3⟩
  pngEncode := fun _ _ => none
  jpegEncode := fun _ _ => none
  imageDecode := fun _ => .error (.other 100)

/-- Collaborators whose storage opens every path and whose decoder yields
`sampleImage`. -/
def goodStorage : Collab where
  osCreate := fun _ => .ok ⟨3⟩
  osOpen := fun _ => .ok ⟨3⟩
  pngEncode := fun _ _ => none
  jpegEncode := fun _ _ => none
  imageDecode := fun _ => .ok (sampleImage, "png")


/-! ## Conversion lemmas -/

theorem truncate_of_nonneg {q : ℚ} (h : 0 ≤ q) : truncate q = ⌊q⌋ := by
  unfold truncate
  rw [Rat.floor_def, Int.tdiv_eq_ediv (Rat.num_nonneg.mpr h) (by positivity)]

theorem clamp01_eq (d : ℚ) : clamp01 d = min 1 (max 0 d) := by
  unfold clamp01
  simp only
  split_ifs with h1 h2 h2
  · norm_num at h2
  · rw [max_eq_left h1.le]; simp
  · rw [max_eq_right (not_lt.mp h1), min_eq_left h2.le]
  · rw [max_eq_right (not_lt.mp h1), min_eq_right (not_lt.mp h2)]

theorem clamp01_nonneg (d : ℚ) : 0 ≤ clamp01 d := by
  rw [clamp01_eq]; exact le_min zero_le_one (le_max_left _ _)

theorem clamp01_le_one (d : ℚ) : clamp01 d ≤ 1 := by
  rw [clamp01_eq]; exact min_le_left _ _

theorem clamp01_of_mem {d : ℚ} (h0 : 0 ≤ d) (h1 : d ≤ 1) : clamp01 d = d := by
  rw [clamp01_eq, max_eq_right h0, min_eq_right h1]

theorem f2UScaled_eq_floor (d : ℚ) : f2UScaled d = ⌊clamp01 d * 255⌋ := by
  unfold f2UScaled
  exact truncate_of_nonneg (mul_nonneg (clamp01_nonneg d) (by norm_num))

theorem f2UScaled_nonneg (d : ℚ) : 0 ≤ f2UScaled d := by
  rw [f2UScaled_eq_floor]
  exact Int.floor_nonneg.mpr (mul_nonneg (clamp01_nonneg d) (by norm_num))

theorem f2UScaled_le (d : ℚ) : f2UScaled d ≤ 255 := by
  rw [f2UScaled_eq_floor]
  have h : clamp01 d * 255 ≤ ((255 : Int) : ℚ) := by
    have := clamp01_le_one d
    push_cast; linarith
  have := Int.floor_mono h
  rwa [Int.floor_intCast] at this

theorem f2U_cast (d : ℚ) : (f2U d : Int) = f2UScaled d := by
  have h0 := f2UScaled_nonneg d
  have h1 := f2UScaled_le d
  unfold f2U
  omega

theorem f2U_le (d : ℚ) : f2U d ≤ 255 := by
  have := f2U_cast d
  have := f2UScaled_le d
  omega

theorem f2U_natCast_div {n : Nat} (h : n ≤ 255) : f2U ((n : ℚ) / 255) = n := by
  have hn : ((n : ℚ) / 255) ≤ 1 := by
    rw [div_le_one (by norm_num)]; exact_mod_cast h
  have h0 : (0 : ℚ) ≤ (n : ℚ) / 255 := by positivity
  have hc := f2U_cast ((n : ℚ) / 255)
  rw [f2UScaled_eq_floor, clamp01_of_mem h0 hn] at hc
  have : (n : ℚ) / 255 * 255 = ((n : Int) : ℚ) := by push_cast; field_simp
  rw [this, Int.floor_intCast] at hc
  exact_mod_cast hc

theorem u2F_eq {d : Nat} (h : d < 2 ^ 32) : u2F d = ((d / 256 : Nat) : ℚ) / 255 := by
  unfold u2F
  simp only [Nat.mod_eq_of_lt h, Nat.shiftRight_eq_div_pow]

theorem widen8_eq {c : Nat} (h : c ≤ 255) : widen8 c = 257 * c := by
  unfold widen8
  have h1 : c % 2 ^ 8 = c := Nat.mod_eq_of_lt (by omega)
  simp only [h1]
  have h2 : c <<< 8 = 2 ^ 8 * c := by rw [Nat.shiftLeft_eq]; ring
  rw [h2, Nat.or_comm, ← Nat.mul_add_lt_is_or (by omega : c < 2 ^ 8) c]
  omega

theorem u2F_widen {c : Nat} (h : c ≤ 255) : u2F (257 * c) = (c : ℚ) / 255 := by
  rw [u2F_eq (by omega)]
  congr 2
  omega

theorem f2U_u2F_widen {c : Nat} (h : c ≤ 255) : f2U (u2F (257 * c)) = c := by
  rw [u2F_widen h, f2U_natCast_div h]

theorem f2U_u2F_eq_div {r : Nat} (h : r ≤ 65535) : f2U (u2F r) = r / 256 := by
  rw [u2F_eq (by omega), f2U_natCast_div (by omega)]

theorem FColor_RGBA_eq (c : Color) :
    FColor.RGBA ⟨c⟩ = (u2F c.RGBA.1, u2F c.RGBA.2.1, u2F c.RGBA.2.2.1, u2F c.RGBA.2.2.2) := rfl

theorem Image_At_eq (src : FI) (x y : Int) :
    Image.At ⟨src⟩ x y = ⟨f2U (src.At x y).RGBA.1, f2U (src.At x y).RGBA.2.1,
      f2U (src.At x y).RGBA.2.2.1, f2U (src.At x y).RGBA.2.2.2⟩ := rfl

theorem FI2Image_NewFI_At (img : GoImage) (x y : Int) :
    (FI2Image (NewFI img)).At x y = .ofRGBA ⟨f2U (u2F (img.At x y).RGBA.1),
      f2U (u2F (img.At x y).RGBA.2.1), f2U (u2F (img.At x y).RGBA.2.2.1),
      f2U (u2F (img.At x y).RGBA.2.2.2)⟩ := rfl

theorem widen8_f2U (v : ℚ) : widen8 (f2U v) = 257 * f2U v :=
  widen8_eq (f2U_le v)

theorem FI2Image_At_RGBA (src : FI) (x y : Int) :
    ((FI2Image src).At x y).RGBA
      = (257 * f2U (src.At x y).RGBA.1, 257 * f2U (src.At x y).RGBA.2.1,
        257 * f2U (src.At x y).RGBA.2.2.1, 257 * f2U (src.At x y).RGBA.2.2.2) := by
  show RGBA.RGBA (Image.At ⟨src⟩ x y) = _
  rw [Image_At_eq]
  simp only [RGBA.RGBA, widen8_f2U]

theorem u2F_widen_f2U (v : ℚ) : u2F (257 * f2U v) = (f2U v : ℚ) / 255 :=
  u2F_widen (f2U_le v)

theorem f2U_idem (v : ℚ) : f2U (u2F (257 * f2U v)) = f2U v :=
  f2U_u2F_widen (f2U_le v)

theorem u2F_mono {d1 d2 : Nat} (h : d1 ≤ d2) (h2 : d2 < 2 ^ 32) : u2F d1 ≤ u2F d2 := by
  rw [u2F_eq (lt_of_le_of_lt h h2), u2F_eq h2]
  have hd : ((d1 / 256 : Nat) : ℚ) ≤ ((d2 / 256 : Nat) : ℚ) := by
    exact_mod_cast Nat.div_le_div_right h
  linarith

theorem clamp01_mono {v1 v2 : ℚ} (h : v1 ≤ v2) : clamp01 v1 ≤ clamp01 v2 := by
  rw [clamp01_eq, clamp01_eq]
  exact min_le_min le_rfl (max_le_max le_rfl h)

theorem f2U_mono {v1 v2 : ℚ} (h : v1 ≤ v2) : f2U v1 ≤ f2U v2 := by
  have hm : clamp01 v1 * 255 ≤ clamp01 v2 * 255 :=
    mul_le_mul_of_nonneg_right (clamp01_mono h) (by norm_num)
  have hf : f2UScaled v1 ≤ f2UScaled v2 := by
    rw [f2UScaled_eq_floor, f2UScaled_eq_floor]
    exact Int.floor_mono hm
  have e1 := f2U_cast v1
  have e2 := f2U_cast v2
  omega

theorem widen8_lt (c : Nat) : widen8 c < 2 ^ 32 :=
  Nat.mod_lt _ (by decide)

theorem Color_RGBA_lt (c : Color) :
    c.RGBA.1 < 2 ^ 32 ∧ c.RGBA.2.1 < 2 ^ 32 ∧ c.RGBA.2.2.1 < 2 ^ 32 ∧
      c.RGBA.2.2.2 < 2 ^ 32 := by
  cases c with
  | ofRGBA c => exact ⟨widen8_lt _, widen8_lt _, widen8_lt _, widen8_lt _⟩
  | reports r g b a =>
    exact ⟨Nat.mod_lt _ (by decide), Nat.mod_lt _ (by decide), Nat.mod_lt _ (by decide),
      Nat.mod_lt _ (by decide)⟩

/-! ## Rounding to float64 -/

theorem roundEven_cases (y : ℚ) :
    roundEven y = ⌊y⌋ ∨ (roundEven y = ⌊y⌋ + 1 ∧ ((⌊y⌋ : Int) : ℚ) < y) := by
  unfold roundEven
  simp only
  split_ifs with h1 h2 h3
  · exact Or.inl rfl
  · exact Or.inr ⟨rfl, by linarith⟩
  · exact Or.inl rfl
  · exact Or.inr ⟨rfl, by linarith⟩

theorem le_roundEven {y : ℚ} {N : Int} (h : (N : ℚ) ≤ y) : N ≤ roundEven y := by
  have hN : N ≤ ⌊y⌋ := Int.le_floor.mpr h
  rcases roundEven_cases y with e | ⟨e, _⟩ <;> omega

theorem roundEven_le {y : ℚ} {N : Int} (h : y ≤ (N : ℚ)) : roundEven y ≤ N := by
  rcases roundEven_cases y with e | ⟨e, hlt⟩
  · rw [e]
    exact Int.cast_le.mp ((Int.floor_le y).trans h)
  · rw [e]
    have : ((⌊y⌋ : Int) : ℚ) < (N : ℚ) := lt_of_lt_of_le hlt h
    have : ⌊y⌋ < N := Int.cast_lt.mp this
    omega

theorem roundEven_intCast (N : Int) : roundEven (N : ℚ) = N :=
  le_antisymm (roundEven_le le_rfl) (le_roundEven le_rfl)

theorem ulpExp_eq {x : ℚ} {k : Int} (h1 : (2 : ℚ) ^ k ≤ x) (h2 : x < (2 : ℚ) ^ (k + 1))
    (hk : -1022 ≤ k) : ulpExp x = k - 52 := by
  have hx : 0 < x := lt_of_lt_of_le (by positivity) h1
  have hl : Int.log 2 x = k := by
    have a : k ≤ Int.log 2 x := (Int.zpow_le_iff_le_log (by decide) hx).mp (by exact_mod_cast h1)
    have b : Int.log 2 x < k + 1 := (Int.lt_zpow_iff_log_lt (by decide) hx).mp (by exact_mod_cast h2)
    omega
  unfold ulpExp
  rw [hl]
  omega

theorem ulpExp_nonpos {x : ℚ} (h0 : 0 < x) (h1 : x ≤ 255) : ulpExp x ≤ 0 := by
  have b : Int.log 2 x < 8 :=
    (Int.lt_zpow_iff_log_lt (by decide) h0).mp (by norm_num; linarith)
  unfold ulpExp
  omega

theorem roundFloat64_of_pos {x : ℚ} (h : 0 < x) :
    roundFloat64 x = (roundEven (x / 2 ^ ulpExp x) : ℚ) * 2 ^ ulpExp x := by
  unfold roundFloat64
  rw [if_neg h.ne', if_neg (not_lt.mpr h.le)]

theorem roundFloat64_zero : roundFloat64 0 = 0 := by
  unfold roundFloat64
  rw [if_pos rfl]

/-- Rounding to `float64` does not cross an integer: for `x` in `[0, 255]`
and an integer `n`, `n ≤ x` gives `n ≤ roundFloat64 x` and `x ≤ n` gives
`roundFloat64 x ≤ n`. -/
theorem roundFloat64_bracket {x : ℚ} (h0 : 0 ≤ x) (h1 : x ≤ 255) (n : Int) :
    ((n : ℚ) ≤ x → (n : ℚ) ≤ roundFloat64 x) ∧ (x ≤ (n : ℚ) → roundFloat64 x ≤ (n : ℚ)) := by
  rcases h0.eq_or_lt with rfl | hpos
  · rw [roundFloat64_zero]; exact ⟨id, id⟩
  · have he := ulpExp_nonpos hpos h1
    rw [roundFloat64_of_pos hpos]
    generalize ulpExp x = e at he
    obtain ⟨m, rfl⟩ : ∃ m : Nat, e = -(m : Int) := ⟨(-e).toNat, by omega⟩
    have hq : (0 : ℚ) < 2 ^ (-(m : Int)) := by positivity
    have hN : (((n * 2 ^ m : Int)) : ℚ) * 2 ^ (-(m : Int)) = (n : ℚ) := by
      push_cast
      rw [zpow_neg, zpow_natCast, mul_assoc, mul_inv_cancel₀ (by positivity), mul_one]
    constructor
    · intro h
      have : (((n * 2 ^ m : Int)) : ℚ) ≤ x / 2 ^ (-(m : Int)) := by
        rw [le_div_iff₀ hq, hN]; exact h
      have := le_roundEven this
      have : (((n * 2 ^ m : Int)) : ℚ) ≤ (roundEven (x / 2 ^ (-(m : Int))) : ℚ) := by
        exact_mod_cast this
      calc (n : ℚ) = (((n * 2 ^ m : Int)) : ℚ) * 2 ^ (-(m : Int)) := hN.symm
        _ ≤ _ := mul_le_mul_of_nonneg_right this hq.le
    · intro h
      have : x / 2 ^ (-(m : Int)) ≤ (((n * 2 ^ m : Int)) : ℚ) := by
        rw [div_le_iff₀ hq, hN]; exact h
      have := roundEven_le this
      have : (roundEven (x / 2 ^ (-(m : Int))) : ℚ) ≤ (((n * 2 ^ m : Int)) : ℚ) := by
        exact_mod_cast this
      calc _ ≤ (((n * 2 ^ m : Int)) : ℚ) * 2 ^ (-(m : Int)) :=
            mul_le_mul_of_nonneg_right this hq.le
        _ = (n : ℚ) := hN


theorem roundEven_up {y : ℚ} {n : Int} (h1 : (n : ℚ) + 1 / 2 < y) (h2 : y < (n : ℚ) + 1) :
    roundEven y = n + 1 := by
  have hf : ⌊y⌋ = n := Int.floor_eq_iff.mpr ⟨by linarith, h2⟩
  unfold roundEven
  simp only [hf]
  rw [if_neg (by linarith), if_pos (by linarith)]

theorem roundFloat64_clamped (v : ℚ) :
    0 ≤ roundFloat64 (clamp01 v * 255) ∧ roundFloat64 (clamp01 v * 255) ≤ 255 := by
  have h0 : 0 ≤ clamp01 v * 255 := mul_nonneg (clamp01_nonneg v) (by norm_num)
  have h1 : clamp01 v * 255 ≤ 255 := by
    have := clamp01_le_one v
    linarith
  have a := (roundFloat64_bracket h0 h1 0).1 (by simpa using h0)
  have b := (roundFloat64_bracket h0 h1 255).2 (by simpa using h1)
  exact ⟨by simpa using a, by simpa using b⟩

theorem f2U64Scaled_eq_floor (v : ℚ) :
    f2U64Scaled v = ⌊roundFloat64 (clamp01 v * 255)⌋ :=
  truncate_of_nonneg (roundFloat64_clamped v).1

theorem f2U64Scaled_nonneg (v : ℚ) : 0 ≤ f2U64Scaled v := by
  rw [f2U64Scaled_eq_floor]
  exact Int.floor_nonneg.mpr (roundFloat64_clamped v).1

theorem f2U64Scaled_le (v : ℚ) : f2U64Scaled v ≤ 255 := by
  rw [f2U64Scaled_eq_floor]
  have := Int.floor_mono (roundFloat64_clamped v).2
  rwa [show (255 : ℚ) = ((255 : Int) : ℚ) by norm_num, Int.floor_intCast] at this

theorem f2U64_cast (v : ℚ) : (f2U64 v : Int) = f2U64Scaled v := by
  have h0 := f2U64Scaled_nonneg v
  have h1 := f2U64Scaled_le v
  unfold f2U64
  omega

theorem f2U64Scaled_near_floor (v : ℚ) :
    ⌊clamp01 v * 255⌋ ≤ f2U64Scaled v ∧ f2U64Scaled v ≤ ⌊clamp01 v * 255⌋ + 1 := by
  have h0 : 0 ≤ clamp01 v * 255 := mul_nonneg (clamp01_nonneg v) (by norm_num)
  have h1 : clamp01 v * 255 ≤ 255 := by
    have := clamp01_le_one v
    linarith
  rw [f2U64Scaled_eq_floor]
  constructor
  · exact Int.le_floor.mpr
      ((roundFloat64_bracket h0 h1 ⌊clamp01 v * 255⌋).1 (Int.floor_le _))
  · have hle : clamp01 v * 255 ≤ ((⌊clamp01 v * 255⌋ + 1 : Int) : ℚ) := by
      push_cast
      exact (Int.lt_floor_add_one _).le
    have := Int.floor_mono ((roundFloat64_bracket h0 h1 (⌊clamp01 v * 255⌋ + 1)).2 hle)
    rwa [Int.floor_intCast] at this

theorem nearOne255th_mul : clamp01 nearOne255th * 255 = 72057594037927935 / 2 ^ 56 := by
  rw [clamp01_of_mem (by norm_num [nearOne255th]) (by norm_num [nearOne255th])]
  norm_num [nearOne255th]

theorem roundFloat64_nearOne255th_mul :
    roundFloat64 (72057594037927935 / 2 ^ 56) = 1 := by
  rw [roundFloat64_of_pos (by norm_num),
    ulpExp_eq (k := -1) (by norm_num) (by norm_num) (by norm_num)]
  have hy : (72057594037927935 / 2 ^ 56 : ℚ) / 2 ^ ((-1 : Int) - 52)
      = 72057594037927935 / 8 := by
    norm_num [zpow_neg]
  rw [hy, roundEven_up (n := 9007199254740991) (by norm_num) (by norm_num)]
  norm_num [zpow_neg]

/-! ## Round trips starting from an integer-channel image -/

/-- C1: if the pixel of `img` at `(x, y)` is an 8-bit colour `(R, G, B, A)`,
each channel `c` reported by `RGBA()` as `257 * c`, then `NewFI img` reads
it as the float colour `(R/255, G/255, B/255, A/255)` and
`FI2Image (NewFI img)` returns exactly the 8-bit colour `(R, G, B, A)`;
channel by channel, `u2F (257 * c) = c / 255` and `f2U (u2F (257 * c)) = c`
for every `c` in `[0, 255]`. -/
theorem wrap_unwrap_identity (img : GoImage) (x y : Int) (R G B A : Nat)
    (hR : R ≤ 255) (hG : G ≤ 255) (hB : B ≤ 255) (hA : A ≤ 255)
    (h : (img.At x y).RGBA = (257 * R, 257 * G, 257 * B, 257 * A)) :
    ((NewFI img).At x y).RGBA
        = ((R : ℚ) / 255, (G : ℚ) / 255, (B : ℚ) / 255, (A : ℚ) / 255) ∧
      (FI2Image (NewFI img)).At x y = .ofRGBA ⟨R, G, B, A⟩ ∧
      ∀ c : Nat, c ≤ 255 → u2F (257 * c) = (c : ℚ) / 255 ∧ f2U (u2F (257 * c)) = c := by
  refine ⟨?_, ?_, fun c hc => ⟨u2F_widen hc, f2U_u2F_widen hc⟩⟩
  · show FColor.RGBA ⟨img.At x y⟩ = _
    rw [FColor_RGBA_eq, h]
    simp only [u2F_widen hR, u2F_widen hG, u2F_widen hB, u2F_widen hA]
  · rw [FI2Image_NewFI_At, h]
    simp only [f2U_u2F_widen hR, f2U_u2F_widen hG, f2U_u2F_widen hB, f2U_u2F_widen hA]

/-- The red pixel `(255, 0, 0, 255)` of `sampleImage` reads as the float
colour `(1, 0, 0, 1)` and converts back to `(255, 0, 0, 255)`; its
transparent pixel `(0, 0, 0, 0)` stays `(0, 0, 0, 0)`. -/
theorem wrap_unwrap_identity_witness :
    (((NewFI sampleImage).At 0 0).RGBA = ((1 : ℚ), (0 : ℚ), (0 : ℚ), (1 : ℚ)) ∧
      (FI2Image (NewFI sampleImage)).At 0 0 = .ofRGBA ⟨255, 0, 0, 255⟩) ∧
      (FI2Image (NewFI sampleImage)).At 1 1 = .ofRGBA ⟨0, 0, 0, 0⟩ := by
  have h1 := wrap_unwrap_identity sampleImage 0 0 255 0 0 255 (by decide) (by decide)
    (by decide) (by decide) (by decide)
  have h2 := wrap_unwrap_identity sampleImage 1 1 0 0 0 0 (by decide) (by decide)
    (by decide) (by decide) (by decide)
  refine ⟨⟨?_, h1.2.1⟩, h2.2.1⟩
  rw [h1.1]
  norm_num

/-- C2: for any image `img` and any `(x, y)`, each 8-bit channel `q` of
`FI2Image (NewFI img)` at `(x, y)` is `f2U (u2F r)` for the value `r` the
pixel of `img` reports for that channel, and whenever `r` is in
`[0, 65535]`, `|q / 255 - r / 65535| ≤ 1 / 255`. -/
theorem wrap_unwrap_within_quantum (img : GoImage) (x y : Int) (r g b a : Nat)
    (h : (img.At x y).RGBA = (r, g, b, a)) :
    (FI2Image (NewFI img)).At x y
        = .ofRGBA ⟨f2U (u2F r), f2U (u2F g), f2U (u2F b), f2U (u2F a)⟩ ∧
      ∀ ch : Nat, ch ≤ 65535 →
        |(f2U (u2F ch) : ℚ) / 255 - (ch : ℚ) / 65535| ≤ 1 / 255 := by
  refine ⟨by rw [FI2Image_NewFI_At, h], fun ch hch => ?_⟩
  rw [f2U_u2F_eq_div hch]
  have hq : ((ch / 256 : Nat) : ℚ) * 256 + ((ch % 256 : Nat) : ℚ) = (ch : ℚ) := by
    have := Nat.div_add_mod ch 256
    exact_mod_cast (by omega : ch / 256 * 256 + ch % 256 = ch)
  have hs : ((ch % 256 : Nat) : ℚ) ≤ 255 := by
    exact_mod_cast (by omega : ch % 256 ≤ 255)
  have hd : ((ch / 256 : Nat) : ℚ) ≤ 255 := by
    exact_mod_cast (by omega : ch / 256 ≤ 255)
  have hs0 : (0 : ℚ) ≤ ((ch % 256 : Nat) : ℚ) := Nat.cast_nonneg _
  have hd0 : (0 : ℚ) ≤ ((ch / 256 : Nat) : ℚ) := Nat.cast_nonneg _
  rw [← hq, abs_le]
  constructor <;> linarith

/-- The pixel of `sampleImage16` reports the 16-bit channels
`(0x1234, 0x00ff, 0xffff, 0xffff)`; the round trip returns their high bytes
`(0x12, 0, 255, 255)` and the red channel is within `1 / 255`. -/
theorem wrap_unwrap_within_quantum_witness :
    (FI2Image (NewFI sampleImage16)).At 0 0 = .ofRGBA ⟨18, 0, 255, 255⟩ ∧
      |((18 : Nat) : ℚ) / 255 - ((4660 : Nat) : ℚ) / 65535| ≤ 1 / 255 := by
  have h := wrap_unwrap_within_quantum sampleImage16 0 0 4660 255 65535 65535 (by decide)
  have e1 : f2U (u2F 4660) = 18 := f2U_u2F_eq_div (by decide)
  have e2 : f2U (u2F 255) = 0 := f2U_u2F_eq_div (by decide)
  have e3 : f2U (u2F 65535) = 255 := f2U_u2F_eq_div (by decide)
  have h2 := h.2 4660 (by decide)
  rw [e1] at h2
  exact ⟨by rw [h.1, e1, e2, e3], h2⟩

/-- C3 (as stated, refuted): `u2F` discards the low 8 bits of whatever it is
given, so applied to the 8-bit value `255` itself it yields `0`, not
`255 / 255`, and `f2U (u2F 255)` is `0`, not `255`. -/
theorem native_depth_roundtrip_fails :
    (255 : Nat) ≤ 255 ∧ u2F 255 ≠ ((255 : Nat) : ℚ) / 255 ∧ f2U (u2F 255) ≠ 255 := by
  have hu : u2F 255 = 0 := by rw [u2F_eq (by decide)]; norm_num
  refine ⟨le_refl _, ?_, ?_⟩
  · rw [hu]; norm_num
  · rw [f2U_u2F_eq_div (by decide)]; decide

/-- C3 (amended): the round trip is the identity on the most-significant
byte of a 16-bit value: for every `c` and every low byte `l` in `[0, 255]`,
`u2F (256 * c + l) = c / 255` and `f2U (u2F (256 * c + l)) = c`. -/
theorem high_byte_roundtrip (c l : Nat) (hc : c ≤ 255) (hl : l ≤ 255) :
    u2F (256 * c + l) = (c : ℚ) / 255 ∧ f2U (u2F (256 * c + l)) = c := by
  have hd : (256 * c + l) / 256 = c := by omega
  constructor
  · rw [u2F_eq (by omega), hd]
  · rw [f2U_u2F_eq_div (by omega), hd]

/-- The 16-bit value `0xabcd` normalises to `0xab / 255` and comes back as
`0xab`. -/
theorem high_byte_roundtrip_witness :
    u2F (256 * 171 + 205) = ((171 : Nat) : ℚ) / 255 ∧ f2U (u2F (256 * 171 + 205)) = 171 :=
  high_byte_roundtrip 171 205 (by decide) (by decide)

/-! ## The two conversions -/

/-- Under exact arithmetic (the model `f2U`),
`f2U v = ⌊255 * min 1 (max 0 v)⌋`; `f2U v = 0` for `v < 0` and
`f2U v = 255` for `v > 1`; the integer converted to `uint8` lies in
`[0, 255]`, so the conversion does not wrap, and the result is at most
`255`. -/
theorem f2U_clamps_scales_truncates (v : ℚ) :
    (f2U v : Int) = ⌊255 * min 1 (max 0 v)⌋ ∧
      (v < 0 → f2U v = 0) ∧ (v > 1 → f2U v = 255) ∧
      (0 ≤ f2UScaled v ∧ f2UScaled v ≤ 255 ∧ f2UScaled v % 2 ^ 8 = f2UScaled v) ∧
      f2U v ≤ 255 := by
  have hf : (f2U v : Int) = ⌊255 * min 1 (max 0 v)⌋ := by
    rw [f2U_cast, f2UScaled_eq_floor, clamp01_eq, mul_comm]
  refine ⟨hf, fun h => ?_, fun h => ?_,
    ⟨f2UScaled_nonneg v, f2UScaled_le v, ?_⟩, f2U_le v⟩
  · rw [max_eq_left h.le, min_eq_right zero_le_one, mul_zero, Int.floor_zero] at hf
    exact_mod_cast hf
  · rw [max_eq_right (zero_le_one.trans h.le), min_eq_left h.le, mul_one] at hf
    have : ⌊(255 : ℚ)⌋ = 255 := by
      rw [show (255 : ℚ) = ((255 : Int) : ℚ) by norm_num, Int.floor_intCast]
    rw [this] at hf
    exact_mod_cast hf
  · have h0 := f2UScaled_nonneg v
    have h1 := f2UScaled_le v
    omega

/-- The out-of-range values `-3` and `7` are sent to `0` and `255`. -/
theorem f2U_clamps_scales_truncates_witness :
    ((-3 : ℚ) < 0 ∧ f2U (-3) = 0) ∧ ((7 : ℚ) > 1 ∧ f2U 7 = 255) :=
  ⟨⟨by norm_num, (f2U_clamps_scales_truncates (-3)).2.1 (by norm_num)⟩,
    ⟨by norm_num, (f2U_clamps_scales_truncates 7).2.2.1 (by norm_num)⟩⟩

/-- C5 (as stated, refuted): at the `float64` nearest to `1 / 255` the
product with `255.0` is `1 - 2 ^ (-56)`, which rounds to the `float64`
`1.0`, so `f2U` returns `1`, whereas `⌊255 * min 1 (max 0 v)⌋` is `0`. -/
theorem f2U_floor_formula_fails :
    roundFloat64 nearOne255th = nearOne255th ∧ f2U64 nearOne255th = 1 ∧
      ⌊255 * min 1 (max 0 nearOne255th)⌋ = 0 := by
  refine ⟨?_, ?_, ?_⟩
  · unfold nearOne255th
    rw [roundFloat64_of_pos (by norm_num),
      ulpExp_eq (k := -8) (by norm_num) (by norm_num) (by norm_num)]
    have hy : (282578800148737 / 2 ^ 56 : ℚ) / 2 ^ ((-8 : Int) - 52)
        = ((4521260802379792 : Int) : ℚ) := by
      norm_num [zpow_neg]
    rw [hy, roundEven_intCast]
    norm_num [zpow_neg]
  · have hc := f2U64_cast nearOne255th
    rw [f2U64Scaled_eq_floor, nearOne255th_mul, roundFloat64_nearOne255th_mul,
      Int.floor_one] at hc
    exact_mod_cast hc
  · rw [Int.floor_eq_iff]
    norm_num [nearOne255th]

/-- C5 (amended): `f2U` clamps, scales, rounds and truncates: for every
`v`, `f2U v = ⌊fl (255 * min 1 (max 0 v))⌋` where `fl` rounds the product
to `float64`, and this is `⌊255 * min 1 (max 0 v)⌋` or that value plus
one; `f2U v = 0` for `v < 0` and `f2U v = 255` for `v > 1`; the integer
converted to `uint8` lies in `[0, 255]`, so the conversion does not wrap,
and the result is at most `255`. -/
theorem f2U64_clamps_scales_rounds_truncates (v : ℚ) :
    (f2U64 v : Int) = ⌊roundFloat64 (255 * min 1 (max 0 v))⌋ ∧
      ((f2U64 v : Int) = ⌊255 * min 1 (max 0 v)⌋ ∨
        (f2U64 v : Int) = ⌊255 * min 1 (max 0 v)⌋ + 1) ∧
      (v < 0 → f2U64 v = 0) ∧ (v > 1 → f2U64 v = 255) ∧
      (0 ≤ f2U64Scaled v ∧ f2U64Scaled v ≤ 255 ∧ f2U64Scaled v % 2 ^ 8 = f2U64Scaled v) ∧
      f2U64 v ≤ 255 := by
  have hc := f2U64_cast v
  have h0 := f2U64Scaled_nonneg v
  have h1 := f2U64Scaled_le v
  have hn := f2U64Scaled_near_floor v
  have hm : 255 * min 1 (max 0 v) = clamp01 v * 255 := by rw [clamp01_eq, mul_comm]
  refine ⟨by rw [hc, f2U64Scaled_eq_floor, hm], by rw [hm]; omega, fun h => ?_, fun h => ?_,
    ⟨h0, h1, by omega⟩, by omega⟩
  · have e : clamp01 v * 255 = 0 := by
      rw [clamp01_eq, max_eq_left h.le, min_eq_right zero_le_one, zero_mul]
    have hs : f2U64Scaled v = 0 := by
      rw [f2U64Scaled_eq_floor, e, roundFloat64_zero, Int.floor_zero]
    omega
  · have e : clamp01 v * 255 = 255 := by
      rw [clamp01_eq, max_eq_right (zero_le_one.trans h.le), min_eq_left h.le, one_mul]
    have hf : ⌊clamp01 v * 255⌋ = 255 := by
      rw [e, show (255 : ℚ) = ((255 : Int) : ℚ) by norm_num, Int.floor_intCast]
    omega

/-- The out-of-range values `-3` and `7` are sent to `0` and `255`. -/
theorem f2U64_clamps_scales_rounds_truncates_witness :
    ((-3 : ℚ) < 0 ∧ f2U64 (-3) = 0) ∧ ((7 : ℚ) > 1 ∧ f2U64 7 = 255) :=
  ⟨⟨by norm_num, (f2U64_clamps_scales_rounds_truncates (-3)).2.2.1 (by norm_num)⟩,
    ⟨by norm_num, (f2U64_clamps_scales_rounds_truncates 7).2.2.2.1 (by norm_num)⟩⟩

/-- C6: for a colour whose four channels reported by `RGBA()` are each at
most `65535`, `FColor.RGBA` returns the four components
`⌊ch / 256⌋ / 255`, and each of them lies in `[0, 1]`. -/
theorem FColor_RGBA_normalised (c : Color) (r g b a : Nat)
    (h : c.RGBA = (r, g, b, a))
    (hr : r ≤ 65535) (hg : g ≤ 65535) (hb : b ≤ 65535) (ha : a ≤ 65535) :
    FColor.RGBA ⟨c⟩ = ((⌊(r : ℚ) / 256⌋₊ : ℚ) / 255, (⌊(g : ℚ) / 256⌋₊ : ℚ) / 255,
        (⌊(b : ℚ) / 256⌋₊ : ℚ) / 255, (⌊(a : ℚ) / 256⌋₊ : ℚ) / 255) ∧
      (0 ≤ (FColor.RGBA ⟨c⟩).1 ∧ (FColor.RGBA ⟨c⟩).1 ≤ 1) ∧
      (0 ≤ (FColor.RGBA ⟨c⟩).2.1 ∧ (FColor.RGBA ⟨c⟩).2.1 ≤ 1) ∧
      (0 ≤ (FColor.RGBA ⟨c⟩).2.2.1 ∧ (FColor.RGBA ⟨c⟩).2.2.1 ≤ 1) ∧
      (0 ≤ (FColor.RGBA ⟨c⟩).2.2.2 ∧ (FColor.RGBA ⟨c⟩).2.2.2 ≤ 1) := by
  have key : ∀ ch : Nat, ch ≤ 65535 →
      u2F ch = (⌊(ch : ℚ) / 256⌋₊ : ℚ) / 255 ∧ 0 ≤ u2F ch ∧ u2F ch ≤ 1 := by
    intro ch hch
    have e : u2F ch = ((ch / 256 : Nat) : ℚ) / 255 := u2F_eq (by omega)
    have hfl : ⌊(ch : ℚ) / 256⌋₊ = ch / 256 := by
      have := Nat.floor_div_eq_div (α := ℚ) ch 256
      simpa using this
    refine ⟨by rw [e, hfl], by rw [e]; positivity, ?_⟩
    rw [e, div_le_one (by norm_num)]
    exact_mod_cast (by omega : ch / 256 ≤ 255)
  rw [FColor_RGBA_eq, h]
  exact ⟨by simp only [(key r hr).1, (key g hg).1, (key b hb).1, (key a ha).1],
    (key r hr).2, (key g hg).2, (key b hb).2, (key a ha).2⟩

/-- The colour reporting `(0x1234, 0x00ff, 0xffff, 0xffff)` normalises to
`(⌊4660/256⌋/255, ⌊255/256⌋/255, ⌊65535/256⌋/255, ⌊65535/256⌋/255)`. -/
theorem FColor_RGBA_normalised_witness :
    FColor.RGBA ⟨.reports 4660 255 65535 65535⟩
      = ((⌊((4660 : Nat) : ℚ) / 256⌋₊ : ℚ) / 255, (⌊((255 : Nat) : ℚ) / 256⌋₊ : ℚ) / 255,
        (⌊((65535 : Nat) : ℚ) / 256⌋₊ : ℚ) / 255, (⌊((65535 : Nat) : ℚ) / 256⌋₊ : ℚ) / 255) :=
  (FColor_RGBA_normalised (.reports 4660 255 65535 65535) 4660 255 65535 65535
    (by decide) (by decide) (by decide) (by decide) (by decide)).1

/-! ## Round trips starting from a float image source -/

/-- C4: for every float image source `src` and every `(x, y)`, the pixel of
`NewFI (FI2Image src)` has the components `u2F (257 * f2U v)` for the
components `v` of the pixel of `src`, and for every `v` in `[0, 1]`,
`|u2F (257 * f2U v) - v| ≤ 1 / 255`. -/
theorem unwrap_wrap_within_quantum (src : FI) (x y : Int) (r g b a : ℚ)
    (h : (src.At x y).RGBA = (r, g, b, a)) :
    ((NewFI (FI2Image src)).At x y).RGBA
        = (u2F (257 * f2U r), u2F (257 * f2U g), u2F (257 * f2U b), u2F (257 * f2U a)) ∧
      ∀ v : ℚ, 0 ≤ v → v ≤ 1 → |u2F (257 * f2U v) - v| ≤ 1 / 255 := by
  constructor
  · show FColor.RGBA ⟨(FI2Image src).At x y⟩ = _
    rw [FColor_RGBA_eq, FI2Image_At_RGBA, h]
  · intro v h0 h1
    have hc : ((f2U v : Int) : ℚ) = ((⌊v * 255⌋ : Int) : ℚ) := by
      rw [f2U_cast, f2UScaled_eq_floor, clamp01_of_mem h0 h1]
    have hn : (f2U v : ℚ) = ((⌊v * 255⌋ : Int) : ℚ) := by
      rw [← hc]; norm_cast
    have hlo := Int.floor_le (v * 255)
    have hhi := Int.lt_floor_add_one (v * 255)
    rw [u2F_widen_f2U, hn, abs_le]
    constructor <;> linarith

/-- The pixel `(1/2, 0, 1/3, 1)` of `sampleUnitSource` is read back as
`(127/255, 0, 1/3, 1)`, and its red component moves by at most
`1 / 255`. -/
theorem unwrap_wrap_within_quantum_witness :
    ((NewFI (FI2Image sampleUnitSource)).At 0 0).RGBA
        = (u2F (257 * f2U (1 / 2)), u2F (257 * f2U 0), u2F (257 * f2U (1 / 3)),
          u2F (257 * f2U 1)) ∧
      |u2F (257 * f2U (1 / 2)) - 1 / 2| ≤ 1 / 255 := by
  have h := unwrap_wrap_within_quantum sampleUnitSource 0 0 (1 / 2) 0 (1 / 3) 1 rfl
  exact ⟨h.1, h.2 (1 / 2) (by norm_num) (by norm_num)⟩

/-- C10: quantisation is idempotent: for every `v`,
`f2U (u2F (257 * f2U v)) = f2U v`, and for every float image source `src`
and every `(x, y)`, `FI2Image (NewFI (FI2Image src))` and `FI2Image src`
return the same colour. -/
theorem quantisation_idempotent (v : ℚ) :
    f2U (u2F (257 * f2U v)) = f2U v ∧
      ∀ (src : FI) (x y : Int),
        (FI2Image (NewFI (FI2Image src))).At x y = (FI2Image src).At x y := by
  refine ⟨f2U_idem v, fun src x y => ?_⟩
  rw [FI2Image_NewFI_At, FI2Image_At_RGBA]
  simp only [f2U_idem]
  rfl

/-! ## Colour model and bounds -/

/-- C9: `FI2Image src` reports the canonical 8-bit RGBA model whatever
`src` reports, and the bounds of `src`; `NewFI img` reports the colour
model and the bounds of `img`. -/
theorem views_model_and_bounds :
    (∀ src : FI, (FI2Image src).ColorModel = Model.RGBAModel ∧
        (FI2Image src).Bounds = src.Bounds) ∧
      (∀ img : GoImage, (NewFI img).ColorModel = img.ColorModel ∧
        (NewFI img).Bounds = img.Bounds) :=
  ⟨fun _ => ⟨rfl, rfl⟩, fun _ => ⟨rfl, rfl⟩⟩

/-! ## Save and Load -/

/-- C7: for every `mod` other than `PNG` and `JPEG`, `Save` returns the
"unknown save mod" error and makes no collaborator call (no file create, no
encoder); for `mod = PNG` and `mod = JPEG` it runs `savePng` / `saveJpg`,
whose first call is the file create and whose error is the one `os.Create`
or the encoder returned. -/
theorem Save_unknown_mod (k : Collab) (f : FI) (filename : String) (mod : Int) :
    (mod ≠ PNG → mod ≠ JPEG →
        Save k f filename mod = (some (.errorsNew "unknown save mod"), [])) ∧
      (mod = PNG →
        Save k f filename mod = savePng k (FI2Image f) filename ∧
        (Save k f filename mod).2.head? = some (.osCreate filename) ∧
        (Save k f filename mod).1 = (match k.osCreate filename with
          | .error err => some err
          | .ok fp => k.pngEncode fp (FI2Image f))) ∧
      (mod = JPEG →
        Save k f filename mod = saveJpg k (FI2Image f) filename ∧
        (Save k f filename mod).2.head? = some (.osCreate filename) ∧
        (Save k f filename mod).1 = (match k.osCreate filename with
          | .error err => some err
          | .ok fp => k.jpegEncode fp (FI2Image f))) := by
  refine ⟨fun h1 h2 => ?_, fun h => ?_, fun h => ?_⟩
  · simp [Save, saveImage, h1, h2]
  · subst h
    have e : Save k f filename PNG = savePng k (FI2Image f) filename := by
      simp [Save, saveImage]
    rw [e]
    refine ⟨rfl, ?_, ?_⟩ <;> (unfold savePng; cases k.osCreate filename <;> rfl)
  · subst h
    have e : Save k f filename JPEG = saveJpg k (FI2Image f) filename := by
      simp [Save, saveImage, JPEG, PNG]
    rw [e]
    refine ⟨rfl, ?_, ?_⟩ <;> (unfold saveJpg; cases k.osCreate filename <;> rfl)

/-- Saving with `mod = 99` fails with "unknown save mod" and calls nothing. -/
theorem Save_unknown_mod_witness :
    Save goodStorage sampleSource "out.png" 99
      = (some (.errorsNew "unknown save mod"), []) :=
  (Save_unknown_mod goodStorage sampleSource "out.png" 99).1 (by decide) (by decide)

/-- C8: if opening the path fails with `e`, `Load` returns `(nil, e)` and
its only call is the open (the decoder is not invoked); if the open
succeeds and the decoder fails with `e`, `Load` returns `(nil, e)`;
otherwise it returns `(NewFI img, nil)` for the decoded image `img`. The
source is non-nil exactly when the error is nil. -/
theorem Load_all_or_nothing (k : Collab) (filename : String) :
    (∀ e, k.osOpen filename = .error e →
        Load k filename = ((none, some e), [.osOpen filename])) ∧
      (∀ w e, k.osOpen filename = .ok w → k.imageDecode w = .error e →
        Load k filename
          = ((none, some e), [.osOpen filename, .imageDecode w, .close w])) ∧
      (∀ w img fmt, k.osOpen filename = .ok w → k.imageDecode w = .ok (img, fmt) →
        Load k filename
          = ((some (NewFI img), none), [.osOpen filename, .imageDecode w, .close w])) ∧
      ((Load k filename).1.1.isSome = true ↔ (Load k filename).1.2 = none) := by
  refine ⟨fun e h => ?_, fun w e h1 h2 => ?_, fun w img fmt h1 h2 => ?_, ?_⟩
  · simp [Load, h]
  · simp [Load, h1, h2]
  · simp [Load, h1, h2]
  · cases h1 : k.osOpen filename with
    | error e => simp [Load, h1]
    | ok w =>
      cases h2 : k.imageDecode w with
      | error e => simp [Load, h1, h2]
      | ok p => simp [Load, h1, h2]

/-- Loading a nonexistent path returns the open error and never decodes;
a corrupt file returns the decode error; a good file returns the wrapped
image and no error. -/
theorem Load_all_or_nothing_witness :
    Load emptyStorage "missing.png"
        = ((none, some (.other 2)), [.osOpen "missing.png"]) ∧
      Load corruptStorage "bad.png"
        = ((none, some (.other 100)),
            [.osOpen "bad.png", .imageDecode ⟨3⟩, .close ⟨3⟩]) ∧
      Load goodStorage "good.png"
        = ((some (NewFI sampleImage), none),
            [.osOpen "good.png", .imageDecode ⟨3⟩, .close ⟨3⟩]) :=
  ⟨(Load_all_or_nothing emptyStorage "missing.png").1 (.other 2) rfl,
    (Load_all_or_nothing corruptStorage "bad.png").2.1 ⟨3⟩ (.other 100) rfl rfl,
    (Load_all_or_nothing goodStorage "good.png").2.2.1 ⟨3⟩ sampleImage "png" rfl rfl⟩

/-! ## Monotonicity -/

/-- C11: both conversions are monotone: `u2F d1 ≤ u2F d2` for all `uint32`
values `d1 ≤ d2`, and `f2U v1 ≤ f2U v2` for all `v1 ≤ v2`. Consequently, if
a colour reports a colour channel (red, green or blue) that is at most its
alpha, `FColor.RGBA` yields a component that is at most its alpha
component, and `Image.At` on a float colour with a component at most its
alpha yields an 8-bit colour whose channel is at most its `A`. -/
theorem conversions_monotone :
    (∀ d1 d2 : Nat, d1 ≤ d2 → d2 < 2 ^ 32 → u2F d1 ≤ u2F d2) ∧
      (∀ v1 v2 : ℚ, v1 ≤ v2 → f2U v1 ≤ f2U v2) ∧
      (∀ (c : Color) (r g b a : Nat), c.RGBA = (r, g, b, a) →
        (r ≤ a → (FColor.RGBA ⟨c⟩).1 ≤ (FColor.RGBA ⟨c⟩).2.2.2) ∧
        (g ≤ a → (FColor.RGBA ⟨c⟩).2.1 ≤ (FColor.RGBA ⟨c⟩).2.2.2) ∧
        (b ≤ a → (FColor.RGBA ⟨c⟩).2.2.1 ≤ (FColor.RGBA ⟨c⟩).2.2.2)) ∧
      (∀ (src : FI) (x y : Int) (r g b a : ℚ), (src.At x y).RGBA = (r, g, b, a) →
        (r ≤ a → (Image.At ⟨src⟩ x y).R ≤ (Image.At ⟨src⟩ x y).A) ∧
        (g ≤ a → (Image.At ⟨src⟩ x y).G ≤ (Image.At ⟨src⟩ x y).A) ∧
        (b ≤ a → (Image.At ⟨src⟩ x y).B ≤ (Image.At ⟨src⟩ x y).A)) := by
  refine ⟨fun d1 d2 h h2 => u2F_mono h h2, fun v1 v2 h => f2U_mono h, ?_, ?_⟩
  · intro c r g b a hc
    have hlt : a < 2 ^ 32 := by
      have := (Color_RGBA_lt c).2.2.2
      rwa [hc] at this
    rw [FColor_RGBA_eq, hc]
    exact ⟨fun h => u2F_mono h hlt, fun h => u2F_mono h hlt, fun h => u2F_mono h hlt⟩
  · intro src x y r g b a hc
    rw [Image_At_eq, hc]
    exact ⟨fun h => f2U_mono h, fun h => f2U_mono h, fun h => f2U_mono h⟩

/-- The conversions keep `0x1234 ≤ 0xffff` and `1/2 ≤ 1`; the colour
reporting `(0x1234, 0x00ff, 0xffff, 0xffff)` normalises to a red component
at most its alpha, and the pixel `(1/2, 0, 1/3, 1)` of `sampleUnitSource`
becomes an 8-bit colour with `R ≤ A`. -/
theorem conversions_monotone_witness :
    u2F 4660 ≤ u2F 65535 ∧ f2U (1 / 2) ≤ f2U 1 ∧
      (FColor.RGBA ⟨.reports 4660 255 65535 65535⟩).1
        ≤ (FColor.RGBA ⟨.reports 4660 255 65535 65535⟩).2.2.2 ∧
      (Image.At ⟨sampleUnitSource⟩ 0 0).R ≤ (Image.At ⟨sampleUnitSource⟩ 0 0).A :=
  ⟨conversions_monotone.1 4660 65535 (by decide) (by decide),
    conversions_monotone.2.1 (1 / 2) 1 (by norm_num),
    (conversions_monotone.2.2.1 (.reports 4660 255 65535 65535) 4660 255 65535 65535
      (by decide)).1 (by decide),
    (conversions_monotone.2.2.2 sampleUnitSource 0 0 (1 / 2) 0 (1 / 3) 1 rfl).1
      (by norm_num)⟩

end Mimg
